import Mathlib

/-!
Verification development for the Kuramoto metronome engine (`main.py` of
`rafaelvleite/kuramoto_metronomes`).

The file shallowly embeds the numerical core of the script: phase
wrapping, the time-ramped coupling `K_eff_at` with its `smoothstep`
ease, the integrator `step` together with the per-frame sub-step loop,
the global order parameter and the lock-hold machinery of
`draw_metronomes`, the cluster qualification / colour assignment stage,
the per-oscillator colour hysteresis, and the spatial weight matrix
construction.  Machine floats are modelled by exact reals (or rationals
where the code only does field arithmetic); the pseudo-random draws of
the generator are passed in as explicit oracle inputs.
-/

set_option maxHeartbeats 1000000

/-- Embeds the phase wrap of the frame loop (line 447),
`theta = (theta + math.pi) % (2*math.pi) - math.pi`.  Python `%` with a
positive modulus is floored modulo, `a % m = a - m * ⌊a / m⌋`. -/
noncomputable def wrapAngle (x : ℝ) : ℝ :=
  (x + Real.pi) - 2 * Real.pi * ⌊(x + Real.pi) / (2 * Real.pi)⌋ - Real.pi

/-- Embeds `smoothstep` (lines 206-208): clamp `z` into `[0,1]`, then
`z*z*(3 - 2*z)`. -/
def smoothstep {α : Type} [LinearOrderedField α] (z : α) : α :=
  max 0 (min 1 z) * max 0 (min 1 z) * (3 - 2 * max 0 (min 1 z))

/-- Embeds `K_eff_at` (lines 210-215), with the module constants
`K_START`, `K_END`, `T_RAMP_START`, `T_LOCK_TARGET` as parameters.  The
Python literal `1e-9` is the guard floor of the ramp denominator. -/
def K_eff_at {α : Type} [LinearOrderedField α] (Ks Ke trs tlt t : α) : α :=
  if t ≤ trs then Ks
  else Ks + smoothstep ((t - trs) / max (1 / 1000000000) (tlt - trs)) * (Ke - Ks)

/-- The module-level arrays and constants consumed by `step`
(lines 47-74 and 130-144): natural frequencies, staggered start times,
the normalized weight matrix, the coupling-ramp constants, the fade-in
duration and the noise amplitude. -/
structure Params (n : ℕ) where
  omega : Fin n → ℝ
  t_start : Fin n → ℝ
  Wnorm : Fin n → Fin n → ℝ
  K_START : ℝ
  K_END : ℝ
  T_RAMP_START : ℝ
  T_LOCK_TARGET : ℝ
  FADEIN_SEC : ℝ
  NOISE_STD : ℝ

/-- Embeds the staggered activation gain of `step` (lines 219-224):
`0` before `t_start i`, otherwise
`clip(clip(t - t_start, 0, FADEIN_SEC) / FADEIN_SEC, 0, 1)`
(`np.clip(x, lo, hi) = min hi (max lo x)`). -/
noncomputable def gain {n : ℕ} (p : Params n) (t : ℝ) (i : Fin n) : ℝ :=
  if p.t_start i ≤ t then
    min 1 (max 0 (min p.FADEIN_SEC (max 0 (t - p.t_start i)) / p.FADEIN_SEC))
  else 0

/-- Embeds the coupling term of `step` (lines 225-229):
`K_eff(t) * Σ_j Wnorm[i,j] * gain_i * gain_j * sin(-(θ_i - θ_j))`. -/
noncomputable def coupling {n : ℕ} (p : Params n) (θ : Fin n → ℝ) (t : ℝ) (i : Fin n) : ℝ :=
  K_eff_at p.K_START p.K_END p.T_RAMP_START p.T_LOCK_TARGET t *
    ∑ j, p.Wnorm i j * (gain p t i * gain p t j) * Real.sin (-(θ i - θ j))

/-- Embeds one integrator sub-step (lines 217-234); `ξ i` is the
standard-normal draw consumed for oscillator `i` in this sub-step, so
the noise term is `NOISE_STD * sqrt dt * ξ i`. -/
noncomputable def step {n : ℕ} (p : Params n) (θ : Fin n → ℝ) (t dt : ℝ)
    (ξ : Fin n → ℝ) (i : Fin n) : ℝ :=
  θ i + (p.omega i + coupling p θ t i) * dt + p.NOISE_STD * Real.sqrt dt * ξ i

/-- Embeds the fixed-step physics loop of a frame (lines 444-448): each
sub-step integrates, wraps every phase, and advances the clock by `dt`.
Sub-step `k` consumes the noise vector `ξ k`. -/
noncomputable def simulate {n : ℕ} (p : Params n) (dt : ℝ) (ξ : ℕ → Fin n → ℝ) :
    ℕ → (Fin n → ℝ) × ℝ → (Fin n → ℝ) × ℝ
  | 0, s => s
  | k + 1, s =>
    let s2 := simulate p dt ξ k s
    (fun i => wrapAngle (step p s2.1 s2.2 dt (ξ k) i), s2.2 + dt)

/-- Output constant `VIDEO_FPS` (line 19). -/
def VIDEO_FPS : ℕ := 30

/-- Integration constant `SUBSTEPS` (line 54). -/
def SUBSTEPS : ℕ := 4

/-- Integration constant `DT = 1/(VIDEO_FPS*SUBSTEPS)` (line 55). -/
def DT : ℚ := 1 / ((VIDEO_FPS : ℚ) * (SUBSTEPS : ℚ))

/-- Per-frame elapsed time `frame_dt = SUBSTEPS * DT` (line 308). -/
def frame_dt : ℚ := (SUBSTEPS : ℚ) * DT

/-- Lock threshold `R_LOCK = 0.985` (line 77). -/
noncomputable def R_LOCK : ℝ := 985 / 1000

/-- Lock hold duration `LOCK_HOLD_SEC = 0.60` (line 78). -/
def LOCK_HOLD_SEC : ℚ := 60 / 100

/-- Hysteresis duration `CLUSTER_HYST_SEC = 1.2` (line 87). -/
def CLUSTER_HYST_SEC : ℚ := 12 / 10

/-- Cluster size floor `MIN_CLUSTER_SIZE = 3` (line 84). -/
def MIN_CLUSTER_SIZE : ℕ := 3

/-- Cluster coherence threshold `R_CLUSTER = 0.90` (line 83). -/
noncomputable def R_CLUSTER : ℝ := 90 / 100

/-- Spatial decay `LAMBDA = 160.0` (line 65). -/
def LAMBDA : ℝ := 160

/-- An RGB triple. -/
abbrev Color := ℕ × ℕ × ℕ

/-- The pastel palette `CLUSTER_COLORS` (lines 34-42). -/
def CLUSTER_COLORS : List Color :=
  [(255, 154, 162), (255, 236, 148), (160, 190, 255), (255, 200, 150),
   (196, 173, 255), (180, 235, 200), (255, 180, 220)]

/-- `NEUTRAL_COLOR` (line 43). -/
def NEUTRAL_COLOR : Color := (125, 135, 150)

/-- `LOCK_COLOR` (line 44). -/
def LOCK_COLOR : Color := (140, 235, 170)

/-- Embeds `cluster_coherence` (lines 291-298): the circular order
parameter of a component, `hypot(mean cos, mean sin)`, with `0` for the
empty list. -/
noncomputable def cluster_coherence {n : ℕ} (θ : Fin n → ℝ) (idxs : List (Fin n)) : ℝ :=
  if idxs = [] then 0
  else
    Real.sqrt (((idxs.map fun i => Real.cos (θ i)).sum / idxs.length) ^ 2 +
      ((idxs.map fun i => Real.sin (θ i)).sum / idxs.length) ^ 2)

/-- Colour of the `q`-th qualified cluster: the palette iterator is
restarted when exhausted (lines 346-353), i.e. the palette is indexed
cyclically. -/
def paletteColor (q : ℕ) : Color :=
  CLUSTER_COLORS.getD (q % CLUSTER_COLORS.length) NEUTRAL_COLOR

/-- The colour-assignment loop over qualified clusters (lines 347-355):
clusters are visited in order and each member is written into the dict,
so a later cluster overwrites an earlier one. -/
def assignColors {n : ℕ} (qs : List (List (Fin n))) (q : ℕ) (i : Fin n) : Option Color :=
  match qs with
  | [] => none
  | cl :: rest =>
    match assignColors rest (q + 1) i with
    | some c => some c
    | none => if i ∈ cl then some (paletteColor q) else none

open scoped Classical in
/-- Embeds the qualification filter (lines 340-344): a component
qualifies when its size reaches `MIN_CLUSTER_SIZE` and its internal
coherence reaches `R_CLUSTER`. -/
noncomputable def qualifiedClusters {n : ℕ} (θ : Fin n → ℝ)
    (clusters : List (List (Fin n))) : List (List (Fin n)) :=
  clusters.filter fun cl =>
    decide (MIN_CLUSTER_SIZE ≤ cl.length ∧ R_CLUSTER ≤ cluster_coherence θ cl)

/-- The fresh colour assignment of one frame (lines 335-355), given the
component list produced by `spatial_phase_clusters` on the active
oscillators. -/
noncomputable def fresh_assign {n : ℕ} (θ : Fin n → ℝ)
    (clusters : List (List (Fin n))) (i : Fin n) : Option Color :=
  assignColors (qualifiedClusters θ clusters) 0 i

/-- The hysteresis map `color_state : i -> (rgb, ttl_seconds)` (line 301). -/
abbrev HState (n : ℕ) := Fin n → Option (Color × ℚ)

/-- Embeds the hysteresis update of one frame (lines 357-369): a fresh
assignment resets the entry to `(colour, CLUSTER_HYST_SEC)`; otherwise
the ttl is decremented by the frame's elapsed time and the entry is kept
only while the decremented ttl is still positive. -/
def hysteresis_update {n : ℕ} (fresh : Fin n → Option Color) (prev : HState n)
    (fdt : ℚ) (i : Fin n) : Option (Color × ℚ) :=
  match fresh i with
  | some c => some (c, CLUSTER_HYST_SEC)
  | none =>
    match prev i with
    | some (c, ttl) => if 0 < ttl - fdt then some (c, ttl - fdt) else none
    | none => none

/-- Colour reported for oscillator `i` (line 379):
`color_state.get(i, (NEUTRAL_COLOR, 0.0))[0]`. -/
def reportColor {n : ℕ} (st : HState n) (i : Fin n) : Color :=
  ((st i).getD (NEUTRAL_COLOR, 0)).1

/-- Iterates frames in which no oscillator receives a fresh assignment. -/
def decayIter {n : ℕ} (st : HState n) (fdt : ℚ) : ℕ → HState n
  | 0 => st
  | m + 1 => hysteresis_update (fun _ => none) (decayIter st fdt m) fdt

/-- The global circular order parameter `r` (lines 310-312):
`hypot(mean cos θ, mean sin θ)`. -/
noncomputable def rOrder {n : ℕ} (θ : Fin n → ℝ) : ℝ :=
  Real.sqrt (((∑ i, Real.cos (θ i)) / n) ^ 2 + ((∑ i, Real.sin (θ i)) / n) ^ 2)

/-- The lock-hold timer update (line 315): accumulate `frame_dt` while
`r ≥ R_LOCK`, reset to `0` otherwise. -/
noncomputable def lockStep (lt : ℚ) (r : ℝ) : ℚ :=
  if R_LOCK ≤ r then lt + frame_dt else 0

/-- The fully-locked test (line 316): `lock_timer ≥ LOCK_HOLD_SEC`. -/
def fullyLocked (lt : ℚ) : Prop := LOCK_HOLD_SEC ≤ lt

/-- Embeds the per-frame state and output of `draw_metronomes`
(lines 305-381): the updated lock timer, the reported colour of every
oscillator and the new hysteresis state.  `clusters` is the component
list of `spatial_phase_clusters` over the active oscillators.  On a
locked frame every oscillator is drawn in `LOCK_COLOR` and
`color_state` is cleared. -/
noncomputable def draw_metronomes {n : ℕ} (lt : ℚ) (θ : Fin n → ℝ)
    (clusters : List (List (Fin n))) (prev : HState n) :
    ℚ × (Fin n → Color) × HState n :=
  let lt2 := lockStep lt (rOrder θ)
  if LOCK_HOLD_SEC ≤ lt2 then
    (lt2, fun _ => LOCK_COLOR, fun _ => none)
  else
    let st := fun i => hysteresis_update (fresh_assign θ clusters) prev frame_dt i
    (lt2, fun i => reportColor st i, st)

/-- Pairwise pixel distance between oscillator positions (line 139). -/
noncomputable def distM {n : ℕ} (xs ys : Fin n → ℝ) (i j : Fin n) : ℝ :=
  Real.sqrt ((xs i - xs j) ^ 2 + (ys i - ys j) ^ 2)

/-- Raw spatial weights `exp(-dist/LAMBDA)` with zeroed diagonal
(lines 140-141). -/
noncomputable def weights {n : ℕ} (xs ys : Fin n → ℝ) (i j : Fin n) : ℝ :=
  if i = j then 0 else Real.exp (-distM xs ys i j / LAMBDA)

/-- Row sums of the raw weight matrix (line 142). -/
noncomputable def row_sums {n : ℕ} (xs ys : Fin n → ℝ) (i : Fin n) : ℝ :=
  ∑ j, weights xs ys i j

/-- Row sums after the no-neighbour fallback `row_sums[row_sums == 0] = 1`
(line 143). -/
noncomputable def row_sums_adj {n : ℕ} (xs ys : Fin n → ℝ) (i : Fin n) : ℝ :=
  if row_sums xs ys i = 0 then 1 else row_sums xs ys i

/-- The row-normalized weight matrix `Wnorm = weights / row_sums`
(line 144). -/
noncomputable def Wnorm {n : ℕ} (xs ys : Fin n → ℝ) (i j : Fin n) : ℝ :=
  weights xs ys i j / row_sums_adj xs ys i

/-- The configuration constants named by the spec's error-handling
section (lines 47-74 of the source): population `N`, spatial decay
`lam`, `substeps` and the video fps. -/
structure Config where
  N : ℤ
  lam : ℚ
  substeps : ℤ
  fps : ℤ

/-- Embeds module initialization as run before the frame loop
(lines 53-55 and 130-144).  The script performs no configuration
validation; the only ways it can fail here are Python runtime
exceptions: a `ZeroDivisionError` computing `DT = 1/(fps*substeps)`
when `fps*substeps == 0`, and a numpy `ValueError` when `N < 0` is used
as a sample size for `rng.normal` / `rng.uniform`.  The spatial-weight
construction raises nothing for any `lam` (numpy division by zero only
emits a warning and yields `inf`/`nan` entries).  Returns `DT`. -/
def moduleInit (cfg : Config) : Except String ℚ :=
  if cfg.fps * cfg.substeps = 0 then
    Except.error "ZeroDivisionError: division by zero"
  else if cfg.N < 0 then
    Except.error "ValueError: negative dimensions are not allowed"
  else
    Except.ok (1 / ((cfg.fps : ℚ) * (cfg.substeps : ℚ)))

/-- Whether module initialization completes without an exception. -/
def initSucceeds (cfg : Config) : Bool :=
  match moduleInit cfg with
  | Except.ok _ => true
  | Except.error _ => false

/-- A run of consecutive frames whose phases are all `0`, so that the
order parameter is `1` on every frame; only the lock timer is tracked. -/
noncomputable def lockRun : ℕ → ℚ
  | 0 => 0
  | k + 1 => (draw_metronomes (lockRun k) (fun _ : Fin 2 => 0) [] (fun _ => none)).1

/-! ### Properties of the phase wrap -/

lemma two_pi_pos : (0 : ℝ) < 2 * Real.pi := by
  have h := Real.pi_pos
  linarith

lemma wrapAngle_mem_Ico (x : ℝ) : wrapAngle x ∈ Set.Ico (-Real.pi) Real.pi := by
  unfold wrapAngle
  constructor
  · have h := Int.floor_le ((x + Real.pi) / (2 * Real.pi))
    have h2 : (⌊(x + Real.pi) / (2 * Real.pi)⌋ : ℝ) * (2 * Real.pi) ≤ x + Real.pi :=
      (le_div_iff₀ two_pi_pos).mp h
    linarith
  · have h := Int.lt_floor_add_one ((x + Real.pi) / (2 * Real.pi))
    have h2 : x + Real.pi < ((⌊(x + Real.pi) / (2 * Real.pi)⌋ : ℝ) + 1) * (2 * Real.pi) :=
      (div_lt_iff₀ two_pi_pos).mp h
    nlinarith

lemma wrapAngle_eq_self {x : ℝ} (h : x ∈ Set.Ico (-Real.pi) Real.pi) : wrapAngle x = x := by
  unfold wrapAngle
  have hfl : ⌊(x + Real.pi) / (2 * Real.pi)⌋ = 0 := by
    rw [Int.floor_eq_zero_iff]
    constructor
    · exact div_nonneg (by linarith [h.1]) two_pi_pos.le
    · exact (div_lt_one two_pi_pos).mpr (by linarith [h.2])
  rw [hfl]
  push_cast
  ring

lemma wrapAngle_wrapAngle_add (x y : ℝ) :
    wrapAngle (wrapAngle x + y) = wrapAngle (x + y) := by
  have hne : (2 : ℝ) * Real.pi ≠ 0 := ne_of_gt two_pi_pos
  unfold wrapAngle
  have harg : (x + Real.pi - 2 * Real.pi * (⌊(x + Real.pi) / (2 * Real.pi)⌋ : ℝ) - Real.pi
      + y + Real.pi) / (2 * Real.pi)
      = (x + y + Real.pi) / (2 * Real.pi) - (⌊(x + Real.pi) / (2 * Real.pi)⌋ : ℝ) := by
    field_simp
    ring
  rw [harg, Int.floor_sub_int]
  push_cast
  ring

lemma wrapAngle_zero : wrapAngle 0 = 0 :=
  wrapAngle_eq_self ⟨by linarith [Real.pi_pos], Real.pi_pos⟩

/-- C2 (counterexample): the wrapping step applied to the pre-wrap phase
`π` yields `-π`, which is outside the claimed interval `(-π, π]`; the
wrap of line 447 lands in `[-π, π)`, not `(-π, π]`. -/
theorem C2_wrap_pi :
    wrapAngle Real.pi = -Real.pi ∧ wrapAngle Real.pi ∉ Set.Ioc (-Real.pi) Real.pi := by
  have h : wrapAngle Real.pi = -Real.pi := by
    unfold wrapAngle
    have harg : (Real.pi + Real.pi) / (2 * Real.pi) = 1 := by
      rw [div_eq_one_iff_eq (ne_of_gt two_pi_pos)]
      ring
    rw [harg, Int.floor_one]
    push_cast
    ring
  refine ⟨h, ?_⟩
  rw [h]
  intro hmem
  exact lt_irrefl _ hmem.1

/-- C2 (amended): after every wrapping step the phase lies in the
half-open interval `[-π, π)`: the value `π` never occurs and `-π` is the
representable endpoint. -/
theorem C2_wrap_mem_Ico (x : ℝ) : wrapAngle x ∈ Set.Ico (-Real.pi) Real.pi :=
  wrapAngle_mem_Ico x

/-! ### Properties of the coupling ramp -/

section Ramp

variable {α : Type} [LinearOrderedField α]

lemma clamp_nonneg (z : α) : 0 ≤ max 0 (min 1 z) := le_max_left 0 _

lemma clamp_le_one (z : α) : max 0 (min 1 z) ≤ 1 :=
  max_le zero_le_one (min_le_left 1 z)

lemma smoothstep_nonneg (z : α) : 0 ≤ smoothstep z := by
  have h0 := clamp_nonneg z
  have h1 := clamp_le_one z
  unfold smoothstep
  nlinarith

lemma smoothstep_le_one (z : α) : smoothstep z ≤ 1 := by
  have h0 := clamp_nonneg z
  have h1 := clamp_le_one z
  unfold smoothstep
  nlinarith [mul_nonneg (mul_nonneg (sub_nonneg.2 h1) (sub_nonneg.2 h1)) h0]

lemma smoothstep_mono {x y : α} (h : x ≤ y) : smoothstep x ≤ smoothstep y := by
  have ha0 := clamp_nonneg x
  have ha1 := clamp_le_one x
  have hb0 := clamp_nonneg y
  have hb1 := clamp_le_one y
  have hab : max 0 (min 1 x) ≤ max 0 (min 1 y) :=
    max_le_max le_rfl (min_le_min le_rfl h)
  unfold smoothstep
  nlinarith [mul_nonneg (mul_nonneg (sub_nonneg.2 hab) ha0) (sub_nonneg.2 hb1),
    mul_nonneg (mul_nonneg (sub_nonneg.2 hab) hb0) (sub_nonneg.2 ha1),
    mul_nonneg (mul_nonneg (sub_nonneg.2 hab) ha0) (sub_nonneg.2 ha1),
    mul_nonneg (mul_nonneg (sub_nonneg.2 hab) hb0) (sub_nonneg.2 hb1)]

lemma smoothstep_of_one_le {z : α} (h : 1 ≤ z) : smoothstep z = 1 := by
  unfold smoothstep
  rw [min_eq_left h, max_eq_right zero_le_one]
  norm_num

lemma K_eff_at_bounds {Ks Ke : α} (hK : Ks ≤ Ke) (trs tlt t : α) :
    Ks ≤ K_eff_at Ks Ke trs tlt t ∧ K_eff_at Ks Ke trs tlt t ≤ Ke := by
  unfold K_eff_at
  split
  · exact ⟨le_rfl, hK⟩
  · constructor
    · have h0 := smoothstep_nonneg ((t - trs) / max (1 / 1000000000) (tlt - trs))
      nlinarith [mul_nonneg h0 (sub_nonneg.2 hK)]
    · have h1 := smoothstep_le_one ((t - trs) / max (1 / 1000000000) (tlt - trs))
      have h0 := smoothstep_nonneg ((t - trs) / max (1 / 1000000000) (tlt - trs))
      nlinarith [mul_le_of_le_one_left (sub_nonneg.2 hK) h1]

lemma K_eff_at_zero (trs tlt t : α) : K_eff_at 0 0 trs tlt t = 0 := by
  unfold K_eff_at
  split
  · rfl
  · ring

end Ramp

/-- C4 (amended): assuming `K_start ≤ K_end` and a ramp window of at
least the guard epsilon `1e-9`, `K_eff` is non-decreasing on
`[t_ramp_start, t_lock_target]`, equals `K_start` at `t_ramp_start`,
equals `K_end` for every `t ≥ t_lock_target`, and always lies in
`[K_start, K_end]`. -/
theorem C4_K_eff_ramp (Ks Ke trs tlt : ℚ) (hK : Ks ≤ Ke)
    (hw : 1 / 1000000000 ≤ tlt - trs) :
    (∀ a b, trs ≤ a → a ≤ b → b ≤ tlt →
      K_eff_at Ks Ke trs tlt a ≤ K_eff_at Ks Ke trs tlt b) ∧
    K_eff_at Ks Ke trs tlt trs = Ks ∧
    (∀ t, tlt ≤ t → K_eff_at Ks Ke trs tlt t = Ke) ∧
    (∀ t, Ks ≤ K_eff_at Ks Ke trs tlt t ∧ K_eff_at Ks Ke trs tlt t ≤ Ke) := by
  have hD : (0 : ℚ) < max (1 / 1000000000) (tlt - trs) :=
    lt_of_lt_of_le (by norm_num) (le_max_left _ _)
  refine ⟨?_, ?_, ?_, fun t => K_eff_at_bounds hK trs tlt t⟩
  · intro a b hra hab hbt
    by_cases ha : a ≤ trs
    · rw [show K_eff_at Ks Ke trs tlt a = Ks by unfold K_eff_at; rw [if_pos ha]]
      exact (K_eff_at_bounds hK trs tlt b).1
    · have hb : ¬ b ≤ trs := fun hb => ha (le_trans hab hb)
      unfold K_eff_at
      rw [if_neg ha, if_neg hb]
      have hz : (a - trs) / max (1 / 1000000000) (tlt - trs)
          ≤ (b - trs) / max (1 / 1000000000) (tlt - trs) :=
        (div_le_div_iff_of_pos_right hD).mpr (by linarith)
      have hs := smoothstep_mono hz
      nlinarith [mul_le_mul_of_nonneg_right hs (sub_nonneg.2 hK)]
  · unfold K_eff_at
    rw [if_pos le_rfl]
  · intro t ht
    have htrs : ¬ t ≤ trs := by
      intro hc
      have : (0 : ℚ) < 1 / 1000000000 := by norm_num
      linarith
    unfold K_eff_at
    rw [if_neg htrs, max_eq_right hw]
    have hz : 1 ≤ (t - trs) / (tlt - trs) := by
      rw [le_div_iff₀ (by linarith : (0 : ℚ) < tlt - trs)]
      linarith
    rw [smoothstep_of_one_le hz]
    ring

/-- C4 (witness): the script's own constants `K_START = 0.16`,
`K_END = 1.60`, `T_RAMP_START = 8`, `T_LOCK_TARGET = 40` satisfy the
hypotheses, and the ramp starts at `K_START` and has reached `K_END`
at `t = 45`. -/
theorem C4_K_eff_ramp_witness :
    K_eff_at (4 / 25 : ℚ) (8 / 5) 8 40 8 = 4 / 25 ∧
    K_eff_at (4 / 25 : ℚ) (8 / 5) 8 40 45 = 8 / 5 :=
  ⟨(C4_K_eff_ramp (4 / 25) (8 / 5) 8 40 (by norm_num) (by norm_num)).2.1,
   (C4_K_eff_ramp (4 / 25) (8 / 5) 8 40 (by norm_num) (by norm_num)).2.2.1 45 (by norm_num)⟩

/-- C4 (counterexample): with `K_start = 0 ≤ 1 = K_end` and a positive
but sub-epsilon ramp window `t_lock_target - t_ramp_start = 1e-10`, the
coupling at `t = t_lock_target` is `7/250`, not `K_end`: the claim that
`K_eff(t) = K_end` for every `t ≥ t_lock_target` fails because the
denominator is floored at `1e-9`. -/
theorem C4_short_ramp_counterexample :
    (0 : ℚ) ≤ 1 ∧ (0 : ℚ) < 1 / 10000000000 ∧
    K_eff_at (0 : ℚ) 1 0 (1 / 10000000000) (1 / 10000000000) = 7 / 250 ∧
    (7 / 250 : ℚ) ≠ 1 := by
  refine ⟨by norm_num, by norm_num, ?_, by norm_num⟩
  unfold K_eff_at smoothstep
  norm_num

/-- C8 (amended): a degenerate ramp `t_lock_target = t_ramp_start` never
divides by zero (the denominator is the floor `max 1e-9 0 = 1e-9`), and
`K_eff` equals `K_start` for `t ≤ t_ramp_start` and `K_end` for every
`t ≥ t_ramp_start + 1e-9`; in the open epsilon window between them it
follows the smoothstep, so the jump is instantaneous only up to `1e-9`
seconds. -/
theorem C8_degenerate_ramp (Ks Ke trs t : ℚ) :
    max (1 / 1000000000 : ℚ) (trs - trs) = 1 / 1000000000 ∧
    (t ≤ trs → K_eff_at Ks Ke trs trs t = Ks) ∧
    (trs + 1 / 1000000000 ≤ t → K_eff_at Ks Ke trs trs t = Ke) := by
  refine ⟨?_, ?_, ?_⟩
  · rw [sub_self]
    exact max_eq_left (by norm_num)
  · intro h
    unfold K_eff_at
    rw [if_pos h]
  · intro h
    have htrs : ¬ t ≤ trs := by
      intro hc
      linarith
    unfold K_eff_at
    rw [if_neg htrs, sub_self, max_eq_left (by norm_num : (0:ℚ) ≤ 1 / 1000000000)]
    have hz : 1 ≤ (t - trs) / (1 / 1000000000 : ℚ) := by
      rw [le_div_iff₀ (by norm_num : (0 : ℚ) < 1 / 1000000000)]
      linarith
    rw [smoothstep_of_one_le hz]
    ring

/-- C8 (witness): with the script's coupling bounds and a degenerate
ramp at `t = 8`, the coupling is still `K_START` at `t = 8` and has
jumped to `K_END` by `t = 9`. -/
theorem C8_degenerate_ramp_witness :
    K_eff_at (4 / 25 : ℚ) (8 / 5) 8 8 8 = 4 / 25 ∧
    K_eff_at (4 / 25 : ℚ) (8 / 5) 8 8 9 = 8 / 5 :=
  ⟨(C8_degenerate_ramp (4 / 25) (8 / 5) 8 8).2.1 (by norm_num),
   (C8_degenerate_ramp (4 / 25) (8 / 5) 8 9).2.2 (by norm_num)⟩

/-- C8 (counterexample): with a degenerate ramp at `t_ramp_start = 0`,
`K_start = 0`, `K_end = 1`, the time `t = 5e-10 > t_ramp_start` yields
`K_eff(t) = 1/2`, not `K_end`: the degenerate ramp is not an
instantaneous jump inside the `1e-9` epsilon window. -/
theorem C8_epsilon_window :
    (0 : ℚ) < 1 / 2000000000 ∧
    K_eff_at (0 : ℚ) 1 0 0 (1 / 2000000000) = 1 / 2 ∧
    (1 / 2 : ℚ) ≠ 1 := by
  refine ⟨by norm_num, ?_, by norm_num⟩
  unfold K_eff_at smoothstep
  norm_num

/-! ### Integrator properties -/

lemma step_zero_coupling {n : ℕ} (p : Params n) (hKs : p.K_START = 0)
    (hKe : p.K_END = 0) (hns : p.NOISE_STD = 0) (θ : Fin n → ℝ) (t dt : ℝ)
    (ξ : Fin n → ℝ) (i : Fin n) :
    step p θ t dt ξ i = θ i + p.omega i * dt := by
  unfold step coupling
  rw [hKs, hKe, hns, K_eff_at_zero]
  ring

/-- C5 (confirmed): with `K_START = K_END = 0` and `NOISE_STD = 0`, and
initial phases that are already wrapped, after any number `k` of
sub-steps of any size `dt` the integrator yields exactly the pure drift
`wrap(θ₀ i + ω_i * (k * dt))`, for every oscillator `i`, regardless of
the weight matrix, start times, fade-in, noise draws and start clock. -/
theorem C5_zero_coupling_drift {n : ℕ} (p : Params n) (dt t0 : ℝ)
    (ξ : ℕ → Fin n → ℝ) (θ0 : Fin n → ℝ)
    (hKs : p.K_START = 0) (hKe : p.K_END = 0) (hns : p.NOISE_STD = 0)
    (h0 : ∀ i, wrapAngle (θ0 i) = θ0 i) (k : ℕ) (i : Fin n) :
    (simulate p dt ξ k (θ0, t0)).1 i = wrapAngle (θ0 i + p.omega i * (k * dt)) := by
  induction k with
  | zero =>
    simp only [simulate, Nat.cast_zero, zero_mul, mul_zero, add_zero]
    exact (h0 i).symm
  | succ k ih =>
    show (let s2 := simulate p dt ξ k (θ0, t0);
      ((fun i => wrapAngle (step p s2.1 s2.2 dt (ξ k) i), s2.2 + dt) :
        (Fin n → ℝ) × ℝ)).1 i = _
    simp only
    rw [step_zero_coupling p hKs hKe hns, ih, wrapAngle_wrapAngle_add]
    congr 1
    push_cast
    ring

/-- Parameters for the drift witness: one oscillator with `ω = 1`,
zero coupling bounds and zero noise. -/
noncomputable def pDrift : Params 1 :=
  ⟨fun _ => 1, fun _ => 0, fun _ _ => 0, 0, 0, 8, 40, 5 / 2, 0⟩

/-- C5 (witness): three unit sub-steps of the zero-coupling system move
the single oscillator to `wrap(0 + 1 * (3 * 1))`. -/
theorem C5_zero_coupling_drift_witness :
    (simulate pDrift 1 (fun _ _ => 0) 3 (fun _ => (0 : ℝ), 0)).1 0
      = wrapAngle ((0 : ℝ) + 1 * ((3 : ℕ) * 1)) :=
  C5_zero_coupling_drift pDrift 1 0 (fun _ _ => 0) (fun _ => 0) rfl rfl rfl
    (fun _ => wrapAngle_zero) 3 0

/-- C9 (confirmed): an oscillator `i` that has not started
(`t < t_start i`) has activation gain `0`; its sub-step is exactly
`θ i + ω_i dt` plus its own noise term `NOISE_STD * sqrt dt * ξ i` (its
draw is consumed, its phase is not frozen); and the coupling term of
every oscillator is unchanged under arbitrary modification of `θ i`, so
`i` neither receives nor exerts coupling. -/
theorem C9_pre_activation_drift {n : ℕ} (p : Params n) (θ : Fin n → ℝ)
    (t dt : ℝ) (ξ : Fin n → ℝ) (i : Fin n) (h : t < p.t_start i) :
    gain p t i = 0 ∧
    step p θ t dt ξ i = θ i + p.omega i * dt + p.NOISE_STD * Real.sqrt dt * ξ i ∧
    ∀ (j : Fin n) (θ2 : Fin n → ℝ), (∀ k, k ≠ i → θ2 k = θ k) →
      coupling p θ2 t j = coupling p θ t j := by
  have hg : gain p t i = 0 := by
    unfold gain
    rw [if_neg (not_le.mpr h)]
  have hci : ∀ θ2 : Fin n → ℝ, coupling p θ2 t i = 0 := by
    intro θ2
    unfold coupling
    rw [Finset.sum_eq_zero fun j _ => by rw [hg]; ring, mul_zero]
  refine ⟨hg, ?_, ?_⟩
  · unfold step
    rw [hci θ]
    ring
  · intro j θ2 hag
    by_cases hji : j = i
    · rw [hji, hci, hci]
    · unfold coupling
      congr 1
      refine Finset.sum_congr rfl fun k _ => ?_
      by_cases hki : k = i
      · rw [hki, hg]
        ring
      · rw [hag k hki, hag j hji]

/-- Parameters for the pre-activation witness: one oscillator starting
at `t = 1` with the script's constants. -/
noncomputable def pStagger : Params 1 :=
  ⟨fun _ => 2, fun _ => 1, fun _ _ => 0, 4 / 25, 8 / 5, 8, 40, 5 / 2, 1 / 50⟩

/-- C9 (witness): at `t = 0 < 1 = t_start`, the oscillator's gain is `0`
and its sub-step is pure drift plus its own noise draw. -/
theorem C9_pre_activation_drift_witness :
    gain pStagger 0 0 = 0 ∧
    step pStagger (fun _ => 0) 0 1 (fun _ => 2) 0
      = (fun _ => (0 : ℝ)) 0 + pStagger.omega 0 * 1
        + pStagger.NOISE_STD * Real.sqrt 1 * (fun _ => (2 : ℝ)) 0 :=
  ⟨(C9_pre_activation_drift pStagger (fun _ => 0) 0 1 (fun _ => 2) 0 (by norm_num [pStagger])).1,
   (C9_pre_activation_drift pStagger (fun _ => 0) 0 1 (fun _ => 2) 0 (by norm_num [pStagger])).2.1⟩

/-! ### Hysteresis properties -/

lemma decayIter_eq {n : ℕ} (i : Fin n) (c : Color) (fdt : ℚ) (st : HState n)
    (hf : 0 < fdt) (hst : st i = some (c, CLUSTER_HYST_SEC)) (m : ℕ) :
    decayIter st fdt m i =
      if 0 < CLUSTER_HYST_SEC - m * fdt then some (c, CLUSTER_HYST_SEC - m * fdt)
      else none := by
  induction m with
  | zero =>
    rw [if_pos (by norm_num [CLUSTER_HYST_SEC] : (0:ℚ) < CLUSTER_HYST_SEC - (0:ℕ) * fdt)]
    simpa [decayIter] using hst
  | succ m ih =>
    show hysteresis_update (fun _ => none) (decayIter st fdt m) fdt i = _
    unfold hysteresis_update
    rw [ih]
    by_cases hm : 0 < CLUSTER_HYST_SEC - (m : ℚ) * fdt
    · rw [if_pos hm]
      have harith : CLUSTER_HYST_SEC - (m : ℚ) * fdt - fdt
          = CLUSTER_HYST_SEC - ((m : ℕ) + 1 : ℕ) * fdt := by
        push_cast
        ring
      simp only [harith]
    · rw [if_neg hm]
      rw [if_neg]
      push_cast
      push_cast at hm
      linarith

/-- C6 (confirmed): a fresh cluster colour resets the entry to
`(colour, CLUSTER_HYST_SEC)`; with no fresh assignment the surviving
entry after `m` frames carries exactly the ttl decremented by `m`
frame-times (removed as soon as the decremented ttl is no longer
positive); and the reported colour stays the previous colour exactly
while `m * frame_dt < CLUSTER_HYST_SEC` and is `NEUTRAL_COLOR`
afterwards. -/
theorem C6_hysteresis_decay {n : ℕ} (i : Fin n) (c : Color) (fdt : ℚ)
    (st : HState n) (fresh : Fin n → Option Color)
    (hf : 0 < fdt) (hst : st i = some (c, CLUSTER_HYST_SEC)) :
    (∀ c2, fresh i = some c2 →
      hysteresis_update fresh st fdt i = some (c2, CLUSTER_HYST_SEC)) ∧
    (∀ m : ℕ, decayIter st fdt m i =
      if 0 < CLUSTER_HYST_SEC - m * fdt then some (c, CLUSTER_HYST_SEC - m * fdt)
      else none) ∧
    (∀ m : ℕ, reportColor (decayIter st fdt m) i =
      if (m : ℚ) * fdt < CLUSTER_HYST_SEC then c else NEUTRAL_COLOR) := by
  refine ⟨?_, decayIter_eq i c fdt st hf hst, ?_⟩
  · intro c2 hc2
    unfold hysteresis_update
    rw [hc2]
  · intro m
    unfold reportColor
    rw [decayIter_eq i c fdt st hf hst m]
    by_cases hm : 0 < CLUSTER_HYST_SEC - (m : ℚ) * fdt
    · rw [if_pos hm, if_pos (by linarith)]
      rfl
    · rw [if_neg hm, if_neg (by intro hc; exact hm (by linarith))]
      rfl

/-- Hysteresis state for the decay witness: a single oscillator holding
the first pastel colour at full ttl. -/
def stHyst : HState 1 := fun _ => some ((255, 154, 162), CLUSTER_HYST_SEC)

/-- C6 (witness): with the script's `frame_dt = 1/30`, the entry still
reports its colour 6 frames after the last membership (0.2 s) and
reports `NEUTRAL_COLOR` 36 frames after it (1.2 s). -/
theorem C6_hysteresis_decay_witness :
    reportColor (decayIter stHyst (1 / 30) 6) 0 = (255, 154, 162) ∧
    reportColor (decayIter stHyst (1 / 30) 36) 0 = NEUTRAL_COLOR := by
  have h := C6_hysteresis_decay (0 : Fin 1) (255, 154, 162) (1 / 30) stHyst
    (fun _ => none) (by norm_num) rfl
  constructor
  · rw [h.2.2 6, if_pos (by norm_num [CLUSTER_HYST_SEC])]
  · rw [h.2.2 36, if_neg (by norm_num [CLUSTER_HYST_SEC])]

/-! ### Cluster qualification and colour assignment -/

lemma paletteColor_mem (q : ℕ) : paletteColor q ∈ CLUSTER_COLORS := by
  have h7 : CLUSTER_COLORS.length = 7 := rfl
  have h : q % 7 < 7 := Nat.mod_lt _ (by norm_num)
  unfold paletteColor
  rw [h7]
  interval_cases h : q % 7 <;> simp [CLUSTER_COLORS, h]

lemma assignColors_isSome_iff {n : ℕ} (qs : List (List (Fin n))) (q : ℕ) (i : Fin n) :
    (assignColors qs q i).isSome = true ↔ ∃ cl ∈ qs, i ∈ cl := by
  induction qs generalizing q with
  | nil => simp [assignColors]
  | cons cl rest ih =>
    unfold assignColors
    cases hrec : assignColors rest (q + 1) i with
    | some c =>
      simp only [Option.isSome_some, true_iff]
      obtain ⟨cl2, h1, h2⟩ := (ih (q + 1)).mp (by rw [hrec]; rfl)
      exact ⟨cl2, List.mem_cons_of_mem _ h1, h2⟩
    | none =>
      by_cases hm : i ∈ cl
      · simp only [hm, if_pos, Option.isSome_some, true_iff]
        exact ⟨cl, List.mem_cons_self cl rest, hm⟩
      · rw [if_neg hm]
        simp only [Option.isSome_none, Bool.false_eq_true, false_iff]
        rintro ⟨cl2, h1, h2⟩
        rcases List.mem_cons.mp h1 with h1 | h1
        · exact hm (h1 ▸ h2)
        · have := (ih (q + 1)).mpr ⟨cl2, h1, h2⟩
          rw [hrec] at this
          exact absurd this (by simp)

lemma assignColors_mem_palette {n : ℕ} (qs : List (List (Fin n))) (q : ℕ)
    (i : Fin n) (c : Color) (h : assignColors qs q i = some c) :
    c ∈ CLUSTER_COLORS := by
  induction qs generalizing q with
  | nil => simp [assignColors] at h
  | cons cl rest ih =>
    unfold assignColors at h
    cases hrec : assignColors rest (q + 1) i with
    | some c2 =>
      rw [hrec] at h
      dsimp only at h
      exact ih (q + 1) (hrec.trans h)
    | none =>
      rw [hrec] at h
      dsimp only at h
      by_cases hm : i ∈ cl
      · rw [if_pos hm] at h
        obtain rfl : paletteColor q = c := by injection h
        exact paletteColor_mem q
      · rw [if_neg hm] at h
        exact absurd h (by simp)

/-- C7 (confirmed): for any frame, an oscillator receives a fresh
cluster colour iff it belongs to a detector component whose size
reaches `MIN_CLUSTER_SIZE` and whose internal circular coherence
reaches `R_CLUSTER`; members of every non-qualifying component receive
no colour (reported neutral by the detector), and every assigned colour
is a palette entry. -/
theorem C7_cluster_qualification {n : ℕ} (θ : Fin n → ℝ)
    (clusters : List (List (Fin n))) (i : Fin n) :
    ((fresh_assign θ clusters i).isSome = true ↔
      ∃ cl ∈ clusters, i ∈ cl ∧ MIN_CLUSTER_SIZE ≤ cl.length ∧
        R_CLUSTER ≤ cluster_coherence θ cl) ∧
    ∀ c, fresh_assign θ clusters i = some c → c ∈ CLUSTER_COLORS := by
  constructor
  · rw [fresh_assign, assignColors_isSome_iff]
    constructor
    · rintro ⟨cl, hcl, hi⟩
      rw [qualifiedClusters, List.mem_filter] at hcl
      obtain ⟨h1, h2⟩ := hcl
      rw [decide_eq_true_eq] at h2
      exact ⟨cl, h1, hi, h2.1, h2.2⟩
    · rintro ⟨cl, h1, hi, hs, hc⟩
      refine ⟨cl, ?_, hi⟩
      rw [qualifiedClusters, List.mem_filter]
      exact ⟨h1, by rw [decide_eq_true_eq]; exact ⟨hs, hc⟩⟩
  · intro c h
    exact assignColors_mem_palette _ _ _ _ h

/-! ### Lock-hold state machine -/

lemma frame_dt_eq : frame_dt = 1 / 30 := by
  norm_num [frame_dt, DT, VIDEO_FPS, SUBSTEPS]

lemma rOrder_const_zero (n : ℕ) (hn : 0 < n) :
    rOrder (fun _ : Fin n => (0 : ℝ)) = 1 := by
  unfold rOrder
  simp only [Real.cos_zero, Real.sin_zero, Finset.sum_const, Finset.card_univ,
    Fintype.card_fin, nsmul_eq_mul, mul_one, mul_zero]
  rw [div_self (by exact_mod_cast hn.ne' : (n : ℝ) ≠ 0)]
  norm_num

lemma rOrder_antipodal :
    rOrder (fun i : Fin 2 => if i = 0 then 0 else Real.pi) = 0 := by
  unfold rOrder
  rw [Fin.sum_univ_two, Fin.sum_univ_two]
  norm_num [Real.cos_pi, Real.sin_pi]

lemma draw_metronomes_fst {n : ℕ} (lt : ℚ) (θ : Fin n → ℝ)
    (clusters : List (List (Fin n))) (prev : HState n) :
    (draw_metronomes lt θ clusters prev).1 = lockStep lt (rOrder θ) := by
  unfold draw_metronomes
  dsimp only
  split <;> rfl

/-- C1 (amended): once `fully_locked` holds it keeps holding on any
subsequent frame whose order parameter is still `≥ R_LOCK`, and on such
a locked frame the clustering output is suppressed: every oscillator is
reported in `LOCK_COLOR` and the hysteresis state is cleared.  (The
converse frame — `r < R_LOCK` — resets the lock timer; see the
counterexample.) -/
theorem C1_lock_sticky_while_r_high {n : ℕ} (lt : ℚ) (θ : Fin n → ℝ)
    (clusters : List (List (Fin n))) (prev : HState n)
    (hL : fullyLocked lt) (hr : R_LOCK ≤ rOrder θ) :
    fullyLocked (draw_metronomes lt θ clusters prev).1 ∧
    (draw_metronomes lt θ clusters prev).2.1 = (fun _ => LOCK_COLOR) ∧
    (draw_metronomes lt θ clusters prev).2.2 = (fun _ => none) := by
  have hlt2 : lockStep lt (rOrder θ) = lt + frame_dt := by
    unfold lockStep
    rw [if_pos hr]
  have hfd : (0 : ℚ) < frame_dt := by rw [frame_dt_eq]; norm_num
  have h2 : fullyLocked (lt + frame_dt) := by
    unfold fullyLocked at hL ⊢
    linarith
  have hcond : LOCK_HOLD_SEC ≤ lockStep lt (rOrder θ) := by
    rw [hlt2]
    exact h2
  have hout : draw_metronomes lt θ clusters prev
      = (lockStep lt (rOrder θ), fun _ => LOCK_COLOR, fun _ => none) := by
    unfold draw_metronomes
    dsimp only
    rw [if_pos hcond]
  rw [hout]
  exact ⟨by show fullyLocked (lockStep lt (rOrder θ)); rw [hlt2]; exact h2, rfl, rfl⟩

/-- C1 (witness): from a lock timer that has just reached
`LOCK_HOLD_SEC` and a perfectly coherent frame (`r = 1`), the next frame
is still fully locked, all-green and with cleared hysteresis state. -/
theorem C1_lock_sticky_witness :
    fullyLocked (draw_metronomes (3 / 5 : ℚ) (fun _ : Fin 1 => 0) [] (fun _ => none)).1 ∧
    (draw_metronomes (3 / 5 : ℚ) (fun _ : Fin 1 => 0) [] (fun _ => none)).2.1
      = (fun _ => LOCK_COLOR) := by
  have h := C1_lock_sticky_while_r_high (3 / 5 : ℚ) (fun _ : Fin 1 => 0) [] (fun _ => none)
    (by unfold fullyLocked LOCK_HOLD_SEC; norm_num)
    (by rw [rOrder_const_zero 1 (by norm_num)]; unfold R_LOCK; norm_num)
  exact ⟨h.1, h.2.1⟩

lemma lockRun_eq (k : ℕ) : lockRun k = k * frame_dt := by
  induction k with
  | zero => simp [lockRun]
  | succ k ih =>
    show (draw_metronomes (lockRun k) (fun _ : Fin 2 => 0) [] (fun _ => none)).1 = _
    rw [draw_metronomes_fst, rOrder_const_zero 2 (by norm_num)]
    unfold lockStep
    rw [if_pos (by unfold R_LOCK; norm_num : R_LOCK ≤ (1 : ℝ)), ih]
    push_cast
    ring

/-- C1 (counterexample): a run that holds `r = 1 ≥ R_LOCK` for 18 frames
(`18 * frame_dt = 0.6 s = LOCK_HOLD_SEC`) becomes fully locked, yet one
subsequent frame with `r = 0 < R_LOCK` (phases `0` and `π`) resets the
lock timer to `0` and `fully_locked` is false again: the engine does
transition back to UNLOCKED. -/
theorem C1_lock_reverts :
    fullyLocked (lockRun 18) ∧
    ¬ fullyLocked (draw_metronomes (lockRun 18)
        (fun i : Fin 2 => if i = 0 then 0 else Real.pi) [] (fun _ => none)).1 := by
  have h18 : lockRun 18 = 18 * frame_dt := lockRun_eq 18
  constructor
  · rw [h18, frame_dt_eq]
    unfold fullyLocked LOCK_HOLD_SEC
    norm_num
  · rw [draw_metronomes_fst, rOrder_antipodal]
    unfold lockStep
    rw [if_neg (by unfold R_LOCK; norm_num : ¬ R_LOCK ≤ (0 : ℝ))]
    unfold fullyLocked LOCK_HOLD_SEC
    norm_num

/-! ### Construction and the spatial weight matrix -/

/-- C3 (counterexample): the invalid configuration `lam = -1 < 0` (with
the script's `N = 36`, `substeps = 4`, `fps = 30`) is accepted: module
initialization completes and returns `DT = 1/120` instead of failing
with a configuration error. -/
theorem C3_invalid_lambda_accepted :
    moduleInit ⟨36, -1, 4, 30⟩ = Except.ok (1 / 120) := by
  norm_num [moduleInit]

/-- C3 (amended): the script performs no configuration validation at
all.  Construction succeeds exactly when `fps * substeps ≠ 0` (else a
`ZeroDivisionError` computing `DT`) and `N ≥ 0` (else a numpy
`ValueError` on the sample size); the spatial decay `lam` is never
checked, so zero or negative `lam` and negative `substeps` are accepted
and the run proceeds. -/
theorem C3_no_config_validation (cfg : Config) :
    initSucceeds cfg = true ↔ cfg.fps * cfg.substeps ≠ 0 ∧ 0 ≤ cfg.N := by
  unfold initSucceeds moduleInit
  by_cases h1 : cfg.fps * cfg.substeps = 0
  · simp [h1]
  · by_cases h2 : cfg.N < 0
    · simp [h1, h2]
    · simp [h1, h2]
      omega

/-- C10 (confirmed): for every layout with at least two oscillators,
every off-diagonal raw weight `exp(-dist/LAMBDA)` is strictly positive,
hence every row sum of the raw weight matrix is strictly positive, the
no-neighbour fallback divisor `1` is never used, and every row of
`Wnorm` sums to exactly `1`. -/
theorem C10_no_isolated {n : ℕ} (h2 : 2 ≤ n) (xs ys : Fin n → ℝ) (i : Fin n) :
    (∀ j, j ≠ i → 0 < weights xs ys i j) ∧
    0 < row_sums xs ys i ∧
    row_sums_adj xs ys i = row_sums xs ys i ∧
    (∑ j, Wnorm xs ys i j) = 1 := by
  have hw : ∀ j, j ≠ i → 0 < weights xs ys i j := by
    intro j hj
    unfold weights
    rw [if_neg fun h => hj h.symm]
    exact Real.exp_pos _
  have hnn : ∀ j : Fin n, 0 ≤ weights xs ys i j := by
    intro j
    unfold weights
    split
    · exact le_rfl
    · exact (Real.exp_pos _).le
  obtain ⟨j, hj⟩ : ∃ j : Fin n, j ≠ i := by
    by_cases h : i = ⟨0, by omega⟩
    · exact ⟨⟨1, by omega⟩, by simp [h, Fin.ext_iff]⟩
    · exact ⟨⟨0, by omega⟩, fun hh => h hh.symm⟩
  have hpos : 0 < row_sums xs ys i := by
    unfold row_sums
    exact Finset.sum_pos' (fun j _ => hnn j) ⟨j, Finset.mem_univ j, hw j hj⟩
  have hadj : row_sums_adj xs ys i = row_sums xs ys i := by
    unfold row_sums_adj
    rw [if_neg (ne_of_gt hpos)]
  refine ⟨hw, hpos, hadj, ?_⟩
  unfold Wnorm
  rw [hadj, ← Finset.sum_div]
  have hne : (∑ j, weights xs ys i j) ≠ 0 := ne_of_gt hpos
  exact div_self hne

/-- C10 (witness): two oscillators one pixel apart on a horizontal
line; the first row of the raw matrix has positive sum and the first
row of `Wnorm` sums to one. -/
theorem C10_no_isolated_witness :
    0 < row_sums (fun j : Fin 2 => (j : ℝ)) (fun _ => 0) 0 ∧
    (∑ j, Wnorm (fun j : Fin 2 => (j : ℝ)) (fun _ => 0) 0 j) = 1 := by
  have h := C10_no_isolated (by norm_num) (fun j : Fin 2 => (j : ℝ)) (fun _ => 0) 0
  exact ⟨h.2.1, h.2.2.2⟩
